import Mathlib

/-!
Verification development for the batched SOL distribution engine of the
subwallets dashboard (source: `src/app/subwallets/page.tsx`,
`src/components/ActionModal.tsx`).

Amounts of SOL are modelled as exact rationals (`ℚ`); JavaScript's
`Number(x.toFixed(4))` is modelled by `toFixed4`, which rounds to four
decimal places with ties away from zero for positive arguments, matching
the ECMAScript `toFixed` specification ("pick the larger n" on ties).
-/

namespace Sniper

/-- `LAMPORTS_PER_SOL` from `@solana/web3.js`: 10^9 lamports per SOL. -/
def LAMPORTS_PER_SOL : ℚ := 1000000000

/-- `TX_FEE` constant from `ActionModal.calculateDistribution`: 0.000005 SOL
per transaction. -/
def TX_FEE : ℚ := 5 / 1000000

/-- `Number(x.toFixed(4))`: round to 4 decimal places, ties picking the
larger value (ECMAScript `toFixed`). -/
def toFixed4 (q : ℚ) : ℚ := (Int.floor (q * 10000 + 1 / 2) : ℚ) / 10000

/-- The funding parameters passed to `handleFundSubwallets`
(`page.tsx`): total budget in SOL, number of wallets to fund, random
mode flag, and the optional min/max bounds used in random mode. -/
structure FundParams where
  totalBudget : ℚ
  walletsToFund : ℕ
  isRandom : Bool
  minAmount : ℚ
  maxAmount : ℚ
deriving DecidableEq, Repr

/-- `ActionModal.calculateDistribution`: total fees, one transaction per
wallet (`TX_FEE * params.walletsToFund`). -/
def totalFees (p : FundParams) : ℚ := TX_FEE * p.walletsToFund

/-- The bounded-random drawing loop of `handleFundSubwallets`
(`page.tsx` lines 1000-1010).  `i` is the index into the stream of
`Math.random()` draws, `k` the number of loop iterations still to run
(the last wallet is not drawn: it receives the rounded remainder), and
`remaining` the undistributed budget.  Each pushed amount is
`Number(amount.toFixed(4))` while `remaining` is decreased by the
unrounded draw, exactly as in the source. -/
def drawAmounts (minA maxA : ℚ) (rand : ℕ → ℚ) : ℕ → ℕ → ℚ → List ℚ
  | _, 0, remaining => [toFixed4 remaining]
  | i, k + 1, remaining =>
      let mx := min maxA (remaining - minA * ((k : ℚ) + 1))
      let amount := minA + rand i * (mx - minA)
      toFixed4 amount :: drawAmounts minA maxA rand (i + 1) k (remaining - amount)

/-- The amount-calculation block of `handleFundSubwallets` (`page.tsx`
lines 989-1016): random mode first validates
`minAmount * walletsToFund > totalBudget` and `minAmount > maxAmount`
(in that order), then runs the drawing loop; uniform mode fills an array
of length `walletsToFund` with `Number((totalBudget/walletsToFund).toFixed(4))`. -/
def calcAmounts (p : FundParams) (rand : ℕ → ℚ) : Except String (List ℚ) :=
  if p.isRandom then
    if p.minAmount * (p.walletsToFund : ℚ) > p.totalBudget then
      Except.error "Total budget too low for minimum amounts"
    else if p.minAmount > p.maxAmount then
      Except.error "Minimum amount cannot be greater than maximum amount"
    else
      Except.ok (drawAmounts p.minAmount p.maxAmount rand 0 (p.walletsToFund - 1) p.totalBudget)
  else
    Except.ok (List.replicate p.walletsToFund (toFixed4 (p.totalBudget / (p.walletsToFund : ℚ))))

/-- The validation performed by `ActionModal.handleConfirm` for the
`fund` action (`ActionModal.tsx` lines 93-107): positive budget,
positive wallet count, and in random mode `minAmount ≤ maxAmount` and
`minAmount * walletsToFund ≤ totalBudget` (checked in that order). -/
def handleConfirmValidate (p : FundParams) : Except String Unit :=
  if p.totalBudget ≤ 0 then
    Except.error "Total budget must be greater than 0"
  else if p.walletsToFund ≤ 0 then
    Except.error "Number of wallets must be greater than 0"
  else if p.isRandom then
    if p.minAmount > p.maxAmount then
      Except.error "Minimum amount cannot be greater than maximum amount"
    else if p.minAmount * (p.walletsToFund : ℚ) > p.totalBudget then
      Except.error "Total budget too low for minimum amounts"
    else
      Except.ok ()
  else
    Except.ok ()

theorem toFixed4_mono {a b : ℚ} (h : a ≤ b) : toFixed4 a ≤ toFixed4 b := by
  unfold toFixed4
  have : (Int.floor (a * 10000 + 1 / 2) : ℤ) ≤ Int.floor (b * 10000 + 1 / 2) := by
    apply Int.floor_le_floor
    nlinarith
  have hc : ((Int.floor (a * 10000 + 1 / 2) : ℤ) : ℚ) ≤ ((Int.floor (b * 10000 + 1 / 2) : ℤ) : ℚ) := by
    exact_mod_cast this
  have h4 : (0 : ℚ) ≤ 10000 := by norm_num
  exact div_le_div_of_nonneg_right hc h4

theorem toFixed4_zero : toFixed4 0 = 0 := by
  unfold toFixed4
  norm_num

theorem toFixed4_nonneg {a : ℚ} (h : 0 ≤ a) : 0 ≤ toFixed4 a := by
  have := toFixed4_mono h
  rwa [toFixed4_zero] at this

/-- Invariant-carrying specification of the drawing loop: with `k`
iterations left and `minA * (k+1) ≤ remaining`, the loop returns `k`
drawn amounts (each the 4-decimal rounding of a value in
`[minA, maxA]`) followed by the rounded nonnegative remainder. -/
theorem drawAmounts_spec (minA maxA : ℚ) (rand : ℕ → ℚ)
    (h0 : 0 ≤ minA) (hmm : minA ≤ maxA)
    (hr : ∀ j, 0 ≤ rand j ∧ rand j ≤ 1) :
    ∀ (k i : ℕ) (remaining : ℚ), minA * ((k : ℚ) + 1) ≤ remaining →
      ∃ l last, drawAmounts minA maxA rand i k remaining = l ++ [last] ∧
        l.length = k ∧
        (∀ a ∈ l, toFixed4 minA ≤ a ∧ a ≤ toFixed4 maxA) ∧
        0 ≤ last := by
  intro k
  induction k with
  | zero =>
    intro i remaining hrem
    refine ⟨[], toFixed4 remaining, rfl, rfl, by simp, toFixed4_nonneg ?_⟩
    push_cast at hrem
    nlinarith
  | succ k ih =>
    intro i remaining hrem
    push_cast at hrem
    have hmx1 : minA ≤ remaining - minA * ((k : ℚ) + 1) := by nlinarith
    set mx := min maxA (remaining - minA * ((k : ℚ) + 1)) with hmx
    have hmxge : minA ≤ mx := le_min hmm hmx1
    set amount := minA + rand i * (mx - minA) with hamount
    have hr0 := (hr i).1
    have hr1 := (hr i).2
    have hage : minA ≤ amount := by
      have : 0 ≤ rand i * (mx - minA) := mul_nonneg hr0 (by linarith)
      linarith
    have halemx : amount ≤ mx := by
      have : rand i * (mx - minA) ≤ 1 * (mx - minA) :=
        mul_le_mul_of_nonneg_right hr1 (by linarith)
      simp only [one_mul] at this
      linarith
    have halemax : amount ≤ maxA := le_trans halemx (min_le_left _ _)
    have hnext : minA * ((k : ℚ) + 1) ≤ remaining - amount := by
      have : amount ≤ remaining - minA * ((k : ℚ) + 1) :=
        le_trans halemx (min_le_right _ _)
      linarith
    obtain ⟨l, last, heq, hlen, hbnd, hlast⟩ := ih (i + 1) (remaining - amount) hnext
    refine ⟨toFixed4 amount :: l, last, ?_, by simp [hlen], ?_, hlast⟩
    · show toFixed4 amount :: drawAmounts minA maxA rand (i + 1) k (remaining - amount)
        = (toFixed4 amount :: l) ++ [last]
      rw [heq]
      rfl
    · intro a ha
      rcases List.mem_cons.mp ha with h | h
      · subst h
        exact ⟨toFixed4_mono hage, toFixed4_mono halemax⟩
      · exact hbnd a h

/-- C3 (amended): for valid bounded-random inputs the allocator produces
exactly `count` amounts; every amount except the last lies within
`[toFixed4 minAmount, toFixed4 maxAmount]` — the source rounds each
drawn amount to 4 decimal places, so the nominal bounds only hold up to
that rounding — and all amounts, including the last, are nonnegative. -/
theorem boundedRandom_allocation (p : FundParams) (rand : ℕ → ℚ)
    (hrand : p.isRandom = true)
    (h0 : 0 ≤ p.minAmount) (hmm : p.minAmount ≤ p.maxAmount)
    (hfeas : p.minAmount * (p.walletsToFund : ℚ) ≤ p.totalBudget)
    (hc : 1 ≤ p.walletsToFund)
    (hr : ∀ j, 0 ≤ rand j ∧ rand j ≤ 1) :
    ∃ l, calcAmounts p rand = Except.ok l ∧
      l.length = p.walletsToFund ∧
      (∀ a ∈ l.dropLast, toFixed4 p.minAmount ≤ a ∧ a ≤ toFixed4 p.maxAmount) ∧
      (∀ a ∈ l, 0 ≤ a) := by
  have hk : p.minAmount * (((p.walletsToFund - 1 : ℕ) : ℚ) + 1) ≤ p.totalBudget := by
    have : ((p.walletsToFund - 1 : ℕ) : ℚ) + 1 = (p.walletsToFund : ℚ) := by
      rw [Nat.cast_sub hc]
      push_cast
      ring
    rw [this]
    exact hfeas
  obtain ⟨l, last, heq, hlen, hbnd, hlast⟩ :=
    drawAmounts_spec p.minAmount p.maxAmount rand h0 hmm hr
      (p.walletsToFund - 1) 0 p.totalBudget hk
  refine ⟨l ++ [last], ?_, ?_, ?_, ?_⟩
  · unfold calcAmounts
    rw [hrand]
    rw [if_neg (not_lt.mpr hfeas), if_neg (not_lt.mpr hmm)]
    simp only [if_true]
    rw [heq]
  · simp [hlen]
    omega
  · intro a ha
    rw [List.dropLast_concat] at ha
    exact hbnd a ha
  · intro a ha
    rcases List.mem_append.mp ha with h | h
    · have := (hbnd a h).1
      have h0f : 0 ≤ toFixed4 p.minAmount := toFixed4_nonneg h0
      linarith
    · rcases List.mem_singleton.mp h with rfl
      exact hlast

/-- C3 witness: min = 0.1, max = 0.3, budget = 1, count = 3, rand ≡ 0. -/
theorem boundedRandom_allocation_witness :
    ((⟨1, 3, true, 1/10, 3/10⟩ : FundParams).isRandom = true ∧
      0 ≤ ((1:ℚ)/10) ∧ (1:ℚ)/10 ≤ 3/10 ∧
      ((1:ℚ)/10) * ((3:ℕ) : ℚ) ≤ 1 ∧ 1 ≤ 3 ∧
      (∀ j : ℕ, 0 ≤ (fun _ : ℕ => (0:ℚ)) j ∧ (fun _ : ℕ => (0:ℚ)) j ≤ 1)) ∧
    (∃ l, calcAmounts ⟨1, 3, true, 1/10, 3/10⟩ (fun _ => (0:ℚ)) = Except.ok l ∧
      l.length = 3 ∧
      (∀ a ∈ l.dropLast, toFixed4 ((1:ℚ)/10) ≤ a ∧ a ≤ toFixed4 ((3:ℚ)/10)) ∧
      (∀ a ∈ l, 0 ≤ a)) :=
  ⟨⟨rfl, by norm_num, by norm_num, by norm_num, by norm_num,
     fun _ => ⟨le_refl 0, by norm_num⟩⟩,
   boundedRandom_allocation ⟨1, 3, true, 1/10, 3/10⟩ (fun _ => 0) rfl
     (by norm_num) (by norm_num) (by norm_num) (by norm_num)
     (fun _ => ⟨le_refl 0, by norm_num⟩)⟩

/-- C3 counterexample: with `minAmount = maxAmount = 0.00006`, `count = 2`
and `totalBudget = 0.00012` (a valid input: `min ≥ 0`, `min ≤ max`,
`min*count ≤ budget`), the first (non-last) produced amount is
`0.0001 = toFixed4 0.00006`, which exceeds `maxAmount = 0.00006`: the
claimed containment in `[minAmount, maxAmount]` fails. -/
theorem boundedRandom_bounds_cex :
    (0 ≤ (6:ℚ)/100000 ∧ (6:ℚ)/100000 ≤ (6:ℚ)/100000 ∧
      ((6:ℚ)/100000) * ((2:ℕ) : ℚ) ≤ 12/100000) ∧
    calcAmounts ⟨12/100000, 2, true, 6/100000, 6/100000⟩ (fun _ => 0) =
      Except.ok [1/10000, 1/10000] ∧
    ([(1:ℚ)/10000, 1/10000].dropLast = [(1:ℚ)/10000]) ∧
    ¬ ((1:ℚ)/10000 ≤ 6/100000) := by
  refine ⟨⟨by norm_num, by norm_num, by norm_num⟩, ?_, rfl, by norm_num⟩
  norm_num [calcAmounts, drawAmounts, toFixed4]

/-- C1 (amended): in uniform mode the allocator returns exactly `count`
copies of `toFixed4 (totalBudget / count)`; the sum of the amounts is
`count * toFixed4 (totalBudget / count)`, which the source does not
correct back to `totalBudget` (no rounding-remainder redistribution). -/
theorem uniform_allocation (budget : ℚ) (n : ℕ) (mi ma : ℚ) (rand : ℕ → ℚ)
    (hb : 0 < budget) (hn : 1 ≤ n) :
    calcAmounts ⟨budget, n, false, mi, ma⟩ rand =
      Except.ok (List.replicate n (toFixed4 (budget / (n : ℚ)))) ∧
    (List.replicate n (toFixed4 (budget / (n : ℚ)))).length = n ∧
    (∀ a ∈ List.replicate n (toFixed4 (budget / (n : ℚ))),
      a = toFixed4 (budget / (n : ℚ))) ∧
    (List.replicate n (toFixed4 (budget / (n : ℚ)))).sum =
      (n : ℚ) * toFixed4 (budget / (n : ℚ)) := by
  refine ⟨rfl, List.length_replicate _ _, ?_, ?_⟩
  · intro a ha
    exact List.eq_of_mem_replicate ha
  · rw [List.sum_replicate, nsmul_eq_mul]

/-- C1 witness: budget 10, count 4 — each amount is 2.5 and the sum is 10. -/
theorem uniform_allocation_witness :
    ((0:ℚ) < 10 ∧ 1 ≤ 4) ∧
    (calcAmounts ⟨10, 4, false, 0, 0⟩ (fun _ => 0) =
        Except.ok (List.replicate 4 (toFixed4 (10 / ((4:ℕ) : ℚ)))) ∧
      (List.replicate 4 (toFixed4 (10 / ((4:ℕ) : ℚ)))).length = 4 ∧
      (∀ a ∈ List.replicate 4 (toFixed4 (10 / ((4:ℕ) : ℚ))),
        a = toFixed4 (10 / ((4:ℕ) : ℚ))) ∧
      (List.replicate 4 (toFixed4 (10 / ((4:ℕ) : ℚ)))).sum =
        ((4:ℕ) : ℚ) * toFixed4 (10 / ((4:ℕ) : ℚ))) :=
  ⟨⟨by norm_num, by norm_num⟩,
   uniform_allocation 10 4 0 0 (fun _ => 0) (by norm_num) (by norm_num)⟩

/-- C1 counterexample: budget 10, count 3 (valid input).  Each amount is
`toFixed4 (10/3) = 3.3333`, so the sum is `9.9999`, which differs from
`totalBudget` rounded to the configured precision (`toFixed4 10 = 10`);
rounding the sum does not repair it either (`toFixed4 9.9999 = 9.9999`). -/
theorem uniform_sum_cex :
    calcAmounts ⟨10, 3, false, 0, 0⟩ (fun _ => 0) =
      Except.ok [33333/10000, 33333/10000, 33333/10000] ∧
    ([(33333:ℚ)/10000, 33333/10000, 33333/10000].sum ≠ toFixed4 10) ∧
    (toFixed4 ([(33333:ℚ)/10000, 33333/10000, 33333/10000].sum) ≠ toFixed4 10) := by
  refine ⟨by norm_num [calcAmounts, toFixed4, List.replicate], by norm_num [toFixed4],
    by norm_num [toFixed4]⟩

/-- C4: infeasible bounded-random requests are rejected before any
amount is drawn: if `minAmount * count > totalBudget` or
`minAmount > maxAmount`, `handleFundSubwallets`'s allocator returns a
validation error — the same error for every stream of random draws, so
no draw is consumed — and `ActionModal.handleConfirm`'s validation also
rejects the request. -/
theorem infeasible_rejected (p : FundParams) (hrand : p.isRandom = true)
    (h : p.minAmount * (p.walletsToFund : ℚ) > p.totalBudget ∨
      p.minAmount > p.maxAmount) :
    (∃ e, ∀ rand : ℕ → ℚ, calcAmounts p rand = Except.error e) ∧
    (∃ e2, handleConfirmValidate p = Except.error e2) := by
  constructor
  · by_cases h1 : p.minAmount * (p.walletsToFund : ℚ) > p.totalBudget
    · refine ⟨"Total budget too low for minimum amounts", fun rand => ?_⟩
      unfold calcAmounts
      rw [hrand, if_pos h1]
      simp
    · have h2 : p.minAmount > p.maxAmount := h.resolve_left h1
      refine ⟨"Minimum amount cannot be greater than maximum amount", fun rand => ?_⟩
      unfold calcAmounts
      rw [hrand, if_neg h1, if_pos h2]
      simp
  · unfold handleConfirmValidate
    by_cases hb : p.totalBudget ≤ 0
    · exact ⟨_, by rw [if_pos hb]⟩
    · rw [if_neg hb]
      by_cases hw : p.walletsToFund ≤ 0
      · exact ⟨_, by rw [if_pos hw]⟩
      · rw [if_neg hw, hrand, if_pos rfl]
        by_cases h2 : p.minAmount > p.maxAmount
        · exact ⟨_, by rw [if_pos h2]⟩
        · rw [if_neg h2]
          have h1 : p.minAmount * (p.walletsToFund : ℚ) > p.totalBudget :=
            h.resolve_right h2
          exact ⟨_, by rw [if_pos h1]⟩

/-- C4 witness: the spec's own scenario — budget 5, count 10, min 1
(`10 × 1 = 10 > 5`) is rejected by both validation sites. -/
theorem infeasible_rejected_witness :
    ((⟨5, 10, true, 1, 1⟩ : FundParams).isRandom = true ∧
      ((1:ℚ) * ((10:ℕ) : ℚ) > 5 ∨ (1:ℚ) > 1)) ∧
    ((∃ e, ∀ rand : ℕ → ℚ,
        calcAmounts ⟨5, 10, true, 1, 1⟩ rand = Except.error e) ∧
      (∃ e2, handleConfirmValidate ⟨5, 10, true, 1, 1⟩ = Except.error e2)) :=
  ⟨⟨rfl, Or.inl (by norm_num)⟩,
   infeasible_rejected ⟨5, 10, true, 1, 1⟩ rfl (Or.inl (by norm_num))⟩

/-- Result of the confirmation-polling loop (`page.tsx` lines
1076-1088): whether the transaction was observed confirmed, how many
status polls were performed, and the log of sleeps (in milliseconds)
taken between polls. -/
structure ConfirmResult where
  confirmed : Bool
  attempts : ℕ
  sleepsMs : List ℕ
deriving DecidableEq, Repr

/-- The body of `for (attempt = 0; attempt < 30 && !confirmed; attempt++)`:
poll `status attempt`; on a confirmed status stop, otherwise sleep
1000 ms and continue while fuel remains. -/
def pollLoop (status : ℕ → Bool) : ℕ → ℕ → List ℕ → ConfirmResult
  | attempt, 0, sleeps => ⟨false, attempt, sleeps⟩
  | attempt, fuel + 1, sleeps =>
      if status attempt then ⟨true, attempt + 1, sleeps⟩
      else pollLoop status (attempt + 1) fuel (sleeps ++ [1000])

/-- The confirmation wait of `handleFundSubwallets`: up to 30 polls of
`getSignatureStatus`, 1000 ms apart, returning the outcome as a value
(the caller then decides; in the source the caller turns a timeout into
the batch error "Transaction confirmation timeout"). -/
def waitForConfirmation (status : ℕ → Bool) : ConfirmResult :=
  pollLoop status 0 30 []

theorem pollLoop_attempts_le (status : ℕ → Bool) :
    ∀ (fuel attempt : ℕ) (acc : List ℕ),
      (pollLoop status attempt fuel acc).attempts ≤ attempt + fuel := by
  intro fuel
  induction fuel with
  | zero => intro attempt acc; simp [pollLoop]
  | succ fuel ih =>
    intro attempt acc
    unfold pollLoop
    by_cases h : status attempt
    · simp only [h, if_true]
      omega
    · simp only [h, if_false, Bool.false_eq_true]
      have := ih (attempt + 1) (acc ++ [1000])
      omega

theorem pollLoop_sleeps (status : ℕ → Bool) :
    ∀ (fuel attempt : ℕ) (acc : List ℕ), (∀ d ∈ acc, d = 1000) →
      ∀ d ∈ (pollLoop status attempt fuel acc).sleepsMs, d = 1000 := by
  intro fuel
  induction fuel with
  | zero => intro attempt acc hacc; simpa [pollLoop] using hacc
  | succ fuel ih =>
    intro attempt acc hacc
    unfold pollLoop
    by_cases h : status attempt
    · simpa [h] using hacc
    · simp only [h, if_false, Bool.false_eq_true]
      refine ih (attempt + 1) (acc ++ [1000]) ?_
      intro d hd
      rcases List.mem_append.mp hd with h1 | h1
      · exact hacc d h1
      · simpa using h1

theorem pollLoop_timeout (status : ℕ → Bool) :
    ∀ (fuel attempt : ℕ) (acc : List ℕ),
      (∀ j, attempt ≤ j → j < attempt + fuel → status j = false) →
      pollLoop status attempt fuel acc =
        ⟨false, attempt + fuel, acc ++ List.replicate fuel 1000⟩ := by
  intro fuel
  induction fuel with
  | zero => intro attempt acc hfalse; simp [pollLoop]
  | succ fuel ih =>
    intro attempt acc hfalse
    unfold pollLoop
    have h0 : status attempt = false := hfalse attempt (le_refl _) (by omega)
    simp only [h0, if_false, Bool.false_eq_true]
    have := ih (attempt + 1) (acc ++ [1000]) (fun j hj1 hj2 => hfalse j (by omega) (by omega))
    rw [this, List.append_assoc]
    have h2 : attempt + 1 + fuel = attempt + (fuel + 1) := by omega
    rw [h2]
    simp [List.replicate_succ]

/-- C6: the confirmation wait performs at most 30 polls, every sleep
between polls is exactly 1000 ms, and when no poll within the 30
attempts observes a confirmed status it returns a timeout outcome
(`confirmed = false` after exactly 30 polls and 30 sleeps) as a value
rather than raising — the caller decides what to do with it. -/
theorem waitForConfirmation_spec (status : ℕ → Bool) :
    (waitForConfirmation status).attempts ≤ 30 ∧
    (∀ d ∈ (waitForConfirmation status).sleepsMs, d = 1000) ∧
    ((∀ a, a < 30 → status a = false) →
      waitForConfirmation status = ⟨false, 30, List.replicate 30 1000⟩) := by
  refine ⟨?_, ?_, ?_⟩
  · simpa using pollLoop_attempts_le status 30 0 []
  · exact pollLoop_sleeps status 30 0 [] (by simp)
  · intro h
    have := pollLoop_timeout status 30 0 [] (fun j hj1 hj2 => h j (by omega))
    simpa using this

/-- C6 witness: a status stream that is never confirmed times out after
exactly 30 polls and 30 one-second sleeps. -/
theorem waitForConfirmation_spec_witness :
    (waitForConfirmation (fun _ => false)).attempts ≤ 30 ∧
    (∀ d ∈ (waitForConfirmation (fun _ => false)).sleepsMs, d = 1000) ∧
    waitForConfirmation (fun _ => false) = ⟨false, 30, List.replicate 30 1000⟩ := by
  have h := waitForConfirmation_spec (fun _ => false)
  exact ⟨h.1, h.2.1, h.2.2 (fun a _ => rfl)⟩

/-- The `stage` values of the `FundingProgress` interface in `page.tsx`
(lines 32-39): `'preparing' | 'processing' | 'confirming' | 'complete'`.
Note the source type has no failed stage; failures are recorded in the
separate optional `error` field. -/
inductive Stage where
  | preparing
  | processing
  | confirming
  | complete
deriving DecidableEq, Repr

/-- `FundingProgress` from `page.tsx` lines 32-39. -/
structure FundingProgress where
  stage : Stage
  currentBatch : ℕ
  totalBatches : ℕ
  processedWallets : ℕ
  totalWallets : ℕ
  error : Option String
deriving DecidableEq, Repr

/-- The `Subwallet` interface from `page.tsx` (the `isLoading` flag is
unused by the funding workflow and omitted from the claims; it is kept
here as an optional field for faithfulness). -/
structure Subwallet where
  publicKey : String
  privateKey : String
  index : ℕ
  isRevealed : Bool
  solBalance : ℚ
  caBalance : ℚ
  isLoading : Option Bool
deriving DecidableEq, Repr

/-- One `SystemProgram.transfer` instruction. -/
structure Transfer where
  fromPubkey : String
  toPubkey : String
  lamports : ℚ
deriving DecidableEq, Repr

/-- One transaction built for a batch: the 0-based batch number
(`Math.floor(i / BATCH_SIZE)`) and its transfer instructions. -/
structure Tx where
  batchIdx : ℕ
  transfers : List Transfer
deriving DecidableEq, Repr

/-- The chain-facing oracle: the queried source balance (lamports), the
outcome of each `getLatestBlockhash` attempt (per batch, per retry), the
outcome of `sendTransaction` per batch, the `getSignatureStatus` stream
per batch and poll attempt, and the `Math.random()` stream. -/
structure Chain where
  balance : ℚ
  blockhashTry : ℕ → ℕ → Except String String
  sendResult : ℕ → Except String String
  status : ℕ → ℕ → Bool
  rand : ℕ → ℚ

/-- The blockhash fetch with retry (`page.tsx` lines 1053-1066): up to
3 attempts; a failure on the last attempt propagates. -/
def blockhashRetryAux (f : ℕ → Except String String) : ℕ → ℕ → Except String String
  | r, 0 => f r
  | r, fuel + 1 =>
      match f r with
      | Except.ok bh => Except.ok bh
      | Except.error _ => blockhashRetryAux f (r + 1) fuel

/-- `getLatestBlockhash` with the source's 3-attempt retry loop. -/
def getBlockhashRetry (f : ℕ → Except String String) : Except String String :=
  blockhashRetryAux f 0 2

/-- Mutable state threaded through one funding run: the current
`FundingProgress` value, the chronological trace of every progress
update, the transactions constructed so far, the batch indices whose
transactions were handed to `sendTransaction`, and the subwallet list. -/
structure RunState where
  cur : FundingProgress
  trace : List FundingProgress
  built : List Tx
  submitted : List ℕ
  subs : List Subwallet
deriving DecidableEq, Repr

/-- A `setProgress(prev => ...)` call: update the current progress and
append the new value to the trace. -/
def setP (st : RunState) (f : FundingProgress → FundingProgress) : RunState :=
  let p := f st.cur
  { st with cur := p, trace := st.trace ++ [p] }

/-- `BATCH_SIZE = 2` from `handleFundSubwallets`. -/
def BATCH_SIZE : ℕ := 2

/-- Lockstep partition of the wallet list and the amount list into
slices of `BATCH_SIZE = 2`, exactly as the loop
`for (i = 0; i < walletsToFund.length; i += BATCH_SIZE)` slices
`walletsToFund.slice(i, i+2)` and `amounts.slice(i, i+2)`. -/
def batches : List Subwallet → List ℚ → List (List Subwallet × List ℚ)
  | [], _ => []
  | [w], amts => [([w], amts.take 2)]
  | w1 :: w2 :: ws, amts => ([w1, w2], amts.take 2) :: batches ws (amts.drop 2)

/-- The transfer instructions of one batch transaction
(`batch.forEach((wallet, index) => transaction.add(SystemProgram.transfer(...)))`
with `lamports: batchAmounts[index] * LAMPORTS_PER_SOL`). -/
def mkTransfers (pk : String) (bw : List Subwallet) (ba : List ℚ) : List Transfer :=
  (bw.zip ba).map (fun p => ⟨pk, p.1.publicKey, p.2 * LAMPORTS_PER_SOL⟩)

/-- The transaction built for batch `k`. -/
def mkTx (pk : String) (k : ℕ) (bw : List Subwallet) (ba : List ℚ) : Tx :=
  ⟨k, mkTransfers pk bw ba⟩

/-- The error wrapping of the per-batch catch block:
`Batch (k+1) failed: (message)`. -/
def batchErr (k : ℕ) (e : String) : String :=
  "Batch " ++ toString (k + 1) ++ " failed: " ++ e

/-- JavaScript `Array.prototype.findIndex` over the subwallet list,
searching by `publicKey`
(`subwallets.findIndex(w => w.publicKey === wallet.publicKey)`;
`-1` becomes `none`). -/
def jsFindIndex (target : String) : List Subwallet → Option ℕ
  | [] => none
  | w :: ws =>
      if w.publicKey = target then some 0 else (jsFindIndex target ws).map (· + 1)

/-- One iteration of the balance-update `forEach` (`page.tsx` lines
1090-1103): look the batch wallet up in the captured original list by
public key and, when found, replace that position of the updated list
with a copy whose `solBalance` is the old value plus the allocated
amount, re-rounded to 4 decimal places. -/
def applyOne (orig updated : List Subwallet) (w : Subwallet) (amt : ℚ) : List Subwallet :=
  match jsFindIndex w.publicKey orig with
  | none => updated
  | some wi =>
      match updated.get? wi with
      | none => updated
      | some old => updated.set wi { old with solBalance := toFixed4 (old.solBalance + amt) }

/-- The whole `setSubwallets(current => ...)` updater applied when a
batch's transaction is confirmed: fold `applyOne` over the batch wallets
paired with their batch amounts. -/
def updateBalances (orig : List Subwallet) : List Subwallet → List Subwallet → List ℚ → List Subwallet
  | current, [], _ => current
  | current, w :: bw, ba =>
      match ba with
      | [] => current
      | a :: ba => updateBalances orig (applyOne orig current w a) bw ba

/-- The batch loop of `handleFundSubwallets` (`page.tsx` lines
1030-1117).  For each batch: record `currentBatch`/`processedWallets`,
build the transaction, fetch a blockhash with retry, move to
`confirming`, submit, await confirmation (timeout → error), apply the
optimistic balance update, bump `processedWallets`, and continue; any
failure aborts with the batch-indexed error (fail-fast). -/
def runBatches (ch : Chain) (pk : String) (orig : List Subwallet) :
    List (List Subwallet × List ℚ) → ℕ → RunState → RunState × Option String
  | [], _, st => (setP st (fun p => { p with stage := Stage.complete }), none)
  | (bw, ba) :: rest, k, st =>
      let st1 := setP st (fun p => { p with currentBatch := k + 1, processedWallets := 2 * k })
      let st2 := { st1 with built := st1.built ++ [mkTx pk k bw ba] }
      match getBlockhashRetry (ch.blockhashTry k) with
      | Except.error e => (st2, some (batchErr k e))
      | Except.ok _ =>
          let st3 := setP st2 (fun p => { p with stage := Stage.confirming })
          let st4 := { st3 with submitted := st3.submitted ++ [k] }
          match ch.sendResult k with
          | Except.error e => (st4, some (batchErr k e))
          | Except.ok _ =>
              if (waitForConfirmation (ch.status k)).confirmed then
                let st5 := { st4 with subs := updateBalances orig st4.subs bw ba }
                let st6 := setP st5 (fun p => { p with processedWallets := 2 * k + bw.length })
                runBatches ch pk orig rest (k + 1) st6
              else (st4, some (batchErr k "Transaction confirmation timeout"))

/-- The insufficient-balance message of `page.tsx` line 986. -/
def insufficientMsg (total balance : ℚ) : String :=
  "Insufficient balance. Need " ++ toString total ++ " SOL but wallet has " ++
    toString (balance / LAMPORTS_PER_SOL) ++ " SOL"

/-- The initial `useState<FundingProgress>` value. -/
def initProgress : FundingProgress :=
  ⟨Stage.preparing, 0, 0, 0, 0, none⟩

/-- The body of the outer `try` of `handleFundSubwallets`: the
wallet/subwallet precondition, the reset of the progress state, the
balance check (against `totalBudget * LAMPORTS_PER_SOL` only), the
amount calculation (errors wrapped as distribution failures), and the
batch loop over the first `walletsToFund` subwallets. -/
def runFundingTry (ch : Chain) (hasWallet : Bool) (pk : String)
    (subs : List Subwallet) (params : FundParams) (st0 : RunState) :
    RunState × Option String :=
  if !hasWallet || subs.isEmpty then
    (st0, some "Wallet not connected or no subwallets available")
  else
    let st1 := setP st0 (fun _ =>
      ⟨Stage.preparing, 0, 0, 0, params.walletsToFund, none⟩)
    if ch.balance < params.totalBudget * LAMPORTS_PER_SOL then
      (st1, some (insufficientMsg params.totalBudget ch.balance))
    else
      match calcAmounts params ch.rand with
      | Except.error e => (st1, some ("Failed to calculate distribution: " ++ e))
      | Except.ok amounts =>
          let ws := subs.take params.walletsToFund
          let st2 := setP st1 (fun p =>
            { p with stage := Stage.processing, totalBatches := (ws.length + 1) / 2 })
          runBatches ch pk subs (batches ws amounts) 0 st2

/-- `handleFundSubwallets` end to end: run the `try` body from the
initial progress state; the outer `catch` records any error message in
the progress state's `error` field (leaving `stage` and the counters as
they were). -/
def runFunding (ch : Chain) (hasWallet : Bool) (pk : String)
    (subs : List Subwallet) (params : FundParams) : RunState × Option String :=
  let st0 : RunState := ⟨initProgress, [initProgress], [], [], subs⟩
  match runFundingTry ch hasWallet pk subs params st0 with
  | (st, none) => (st, none)
  | (st, some e) => (setP st (fun p => { p with error := some e }), some e)

/-- Position of a stage along the forward order
`preparing → processing → confirming → complete`. -/
def stageRank : Stage → ℕ
  | Stage.preparing => 0
  | Stage.processing => 1
  | Stage.confirming => 2
  | Stage.complete => 3

/-- Forward order on progress updates: the stage never moves backwards
and `processedWallets` never decreases. -/
def progLE (a b : FundingProgress) : Prop :=
  stageRank a.stage ≤ stageRank b.stage ∧ a.processedWallets ≤ b.processedWallets

/-- Invariant of the progress trace maintained by every
`setProgress` call of the run: the trace ends at the current value, is
forward-ordered, and contains no error so far. -/
structure TraceInv (st : RunState) : Prop where
  lastEq : st.trace.getLast? = some st.cur
  mono : List.Chain' progLE st.trace
  noErr : ∀ p ∈ st.trace, p.error = none

theorem setP_cur (st : RunState) (f : FundingProgress → FundingProgress) :
    (setP st f).cur = f st.cur := rfl

theorem setP_trace (st : RunState) (f : FundingProgress → FundingProgress) :
    (setP st f).trace = st.trace ++ [f st.cur] := rfl

theorem chain_snoc {l : List FundingProgress} {p q : FundingProgress}
    (hc : List.Chain' progLE l) (hl : l.getLast? = some p) (hpq : progLE p q) :
    List.Chain' progLE (l ++ [q]) := by
  rw [List.chain'_append]
  refine ⟨hc, List.chain'_singleton q, ?_⟩
  intro x hx y hy
  rw [hl] at hx
  simp only [Option.mem_def, Option.some.injEq] at hx
  simp only [List.head?_cons, Option.mem_def, Option.some.injEq] at hy
  subst hx
  subst hy
  exact hpq

theorem setP_traceInv {st : RunState} {f : FundingProgress → FundingProgress}
    (h : TraceInv st) (hle : progLE st.cur (f st.cur))
    (herr : (f st.cur).error = none) : TraceInv (setP st f) := by
  constructor
  · rw [setP_trace, setP_cur, List.getLast?_concat]
  · rw [setP_trace]
    exact chain_snoc h.mono h.lastEq hle
  · rw [setP_trace]
    intro p hp
    rcases List.mem_append.mp hp with h1 | h1
    · exact h.noErr p h1
    · rcases List.mem_singleton.mp h1 with rfl
      exact herr

/-- Every batch produced by the lockstep partition has at most
`BATCH_SIZE = 2` wallets. -/
theorem batches_sizes : ∀ (ws : List Subwallet) (amts : List ℚ),
    ∀ b ∈ batches ws amts, (b.1).length ≤ 2
  | [], _ => by simp [batches]
  | [w], amts => by simp [batches]
  | w1 :: w2 :: ws, amts => by
      intro b hb
      simp only [batches, List.mem_cons] at hb
      rcases hb with rfl | hb
      · simp
      · exact batches_sizes ws (amts.drop 2) b hb

theorem lastMem {l : List FundingProgress} {p : FundingProgress}
    (h : l.getLast? = some p) : p ∈ l := by
  have hx : p ∈ l.getLast? := by rw [h]; rfl
  obtain ⟨hne, rfl⟩ := List.mem_getLast?_eq_getLast hx
  exact List.getLast_mem hne

theorem traceInv_setBuilt {st : RunState} (h : TraceInv st) (b : List Tx) :
    TraceInv { st with built := b } := ⟨h.lastEq, h.mono, h.noErr⟩

theorem traceInv_setSubmitted {st : RunState} (h : TraceInv st) (s : List ℕ) :
    TraceInv { st with submitted := s } := ⟨h.lastEq, h.mono, h.noErr⟩

theorem traceInv_setSubs {st : RunState} (h : TraceInv st) (s : List Subwallet) :
    TraceInv { st with subs := s } := ⟨h.lastEq, h.mono, h.noErr⟩

/-- Trace invariant preservation through the batch loop: starting from
an error-free forward-ordered trace whose current stage is at most
`confirming` and whose processed count is at most `2k`, the loop
produces an error-free forward-ordered trace again. -/
theorem runBatches_trace (ch : Chain) (pk : String) (orig : List Subwallet) :
    ∀ (bs : List (List Subwallet × List ℚ)) (k : ℕ) (st : RunState),
      TraceInv st →
      stageRank st.cur.stage ≤ 2 →
      st.cur.processedWallets ≤ 2 * k →
      (∀ b ∈ bs, (b.1).length ≤ 2) →
      TraceInv (runBatches ch pk orig bs k st).1
  | [], k, st => by
      intro h hr hp hbs
      simp only [runBatches]
      refine setP_traceInv h ⟨?_, le_refl _⟩ ?_
      · exact le_trans hr (by simp [stageRank])
      · exact h.noErr st.cur (lastMem h.lastEq)
  | (bw, ba) :: rest, k, st => by
      intro h hr hp hbs
      have hcurErr : st.cur.error = none := h.noErr st.cur (lastMem h.lastEq)
      simp only [runBatches]
      set st1 := setP st (fun p =>
        { p with currentBatch := k + 1, processedWallets := 2 * k }) with hst1
      have h1 : TraceInv st1 := setP_traceInv h ⟨le_refl _, hp⟩ hcurErr
      set st2 := { st1 with built := st1.built ++ [mkTx pk k bw ba] } with hst2
      have h2 : TraceInv st2 := traceInv_setBuilt h1 _
      cases hbh : getBlockhashRetry (ch.blockhashTry k) with
      | error e => exact h2
      | ok bh =>
        set st3 := setP st2 (fun p => { p with stage := Stage.confirming }) with hst3
        have h3 : TraceInv st3 := setP_traceInv h2 ⟨hr, le_refl _⟩ hcurErr
        set st4 := { st3 with submitted := st3.submitted ++ [k] } with hst4
        have h4 : TraceInv st4 := traceInv_setSubmitted h3 _
        cases hsend : ch.sendResult k with
        | error e => exact h4
        | ok sig =>
          by_cases hconf : (waitForConfirmation (ch.status k)).confirmed = true
          · rw [if_pos hconf]
            set st5 := { st4 with subs := updateBalances orig st4.subs bw ba } with hst5
            have h5 : TraceInv st5 := traceInv_setSubs h4 _
            have h6 : TraceInv (setP st5 (fun p =>
                { p with processedWallets := 2 * k + bw.length })) :=
              setP_traceInv h5 ⟨le_refl _, Nat.le_add_right _ _⟩ hcurErr
            refine runBatches_trace ch pk orig rest (k + 1) _ h6 ?_ ?_ ?_
            · exact le_refl 2
            · have hbw : bw.length ≤ 2 := hbs (bw, ba) (List.mem_cons_self _ _)
              show 2 * k + bw.length ≤ 2 * (k + 1)
              omega
            · intro b hb
              exact hbs b (List.mem_cons_of_mem _ hb)
          · rw [if_neg hconf]
            exact h4

theorem mem_of_dropLast {α : Type} {l : List α} {x : α} (h : x ∈ l.dropLast) : x ∈ l := by
  rw [List.dropLast_eq_take] at h
  exact List.take_subset _ _ h

/-- The `try` body preserves the trace invariant when started from a
fresh preparing-stage state. -/
theorem runFundingTry_traceInv (ch : Chain) (hasW : Bool) (pk : String)
    (subs : List Subwallet) (params : FundParams) (st0 : RunState)
    (h : TraceInv st0) (hstage : st0.cur.stage = Stage.preparing)
    (hproc : st0.cur.processedWallets = 0) :
    TraceInv (runFundingTry ch hasW pk subs params st0).1 := by
  unfold runFundingTry
  by_cases hw : (!hasW || subs.isEmpty) = true
  · rw [if_pos hw]
    exact h
  · rw [if_neg hw]
    simp only []
    have h1 : TraceInv (setP st0 (fun _ =>
        ⟨Stage.preparing, 0, 0, 0, params.walletsToFund, none⟩)) :=
      setP_traceInv h ⟨by rw [hstage], by rw [hproc]⟩ rfl
    set st1 := setP st0 (fun _ =>
      ⟨Stage.preparing, 0, 0, 0, params.walletsToFund, none⟩) with hst1
    by_cases hb : ch.balance < params.totalBudget * LAMPORTS_PER_SOL
    · rw [if_pos hb]
      exact h1
    · rw [if_neg hb]
      cases hca : calcAmounts params ch.rand with
      | error e => exact h1
      | ok amounts =>
        have h2 : TraceInv (setP st1 (fun p =>
            { p with
              stage := Stage.processing
              totalBatches := ((subs.take params.walletsToFund).length + 1) / 2 })) :=
          setP_traceInv h1 ⟨Nat.zero_le _, le_refl _⟩ rfl
        exact runBatches_trace ch pk subs _ 0 _ h2
          (by norm_num : (1:ℕ) ≤ 2) (le_refl 0) (batches_sizes _ _)

/-- Master progress theorem for one full run: the trace ends at the
current progress value, is forward-ordered, has no error before its
final entry, has no error at all on success, and on failure the final
progress value carries exactly the terminal error message. -/
theorem runFunding_progress (ch : Chain) (hasW : Bool) (pk : String)
    (subs : List Subwallet) (params : FundParams) :
    ((runFunding ch hasW pk subs params).1.trace.getLast? =
        some (runFunding ch hasW pk subs params).1.cur) ∧
    List.Chain' progLE (runFunding ch hasW pk subs params).1.trace ∧
    (∀ p ∈ (runFunding ch hasW pk subs params).1.trace.dropLast, p.error = none) ∧
    ((runFunding ch hasW pk subs params).2 = none →
      ∀ p ∈ (runFunding ch hasW pk subs params).1.trace, p.error = none) ∧
    (∀ msg, (runFunding ch hasW pk subs params).2 = some msg →
      (runFunding ch hasW pk subs params).1.cur.error = some msg) := by
  have h0 : TraceInv ⟨initProgress, [initProgress], [], [], subs⟩ :=
    ⟨rfl, List.chain'_singleton _, by intro p hp; rcases List.mem_singleton.mp hp with rfl; rfl⟩
  have htry := runFundingTry_traceInv ch hasW pk subs params
    ⟨initProgress, [initProgress], [], [], subs⟩ h0 rfl rfl
  unfold runFunding
  simp only []
  cases hres : runFundingTry ch hasW pk subs params
      ⟨initProgress, [initProgress], [], [], subs⟩ with
  | mk st out =>
    rw [hres] at htry
    cases out with
    | none =>
      refine ⟨htry.lastEq, htry.mono, ?_, ?_, ?_⟩
      · intro p hp
        exact htry.noErr p (mem_of_dropLast hp)
      · intro _ p hp
        exact htry.noErr p hp
      · intro msg hmsg
        simp at hmsg
    | some e =>
      refine ⟨?_, ?_, ?_, ?_, ?_⟩
      · rw [setP_trace, setP_cur, List.getLast?_concat]
      · rw [setP_trace]
        exact chain_snoc htry.mono htry.lastEq ⟨le_refl _, le_refl _⟩
      · rw [setP_trace, List.dropLast_concat]
        exact htry.noErr
      · intro hmsg
        simp at hmsg
      · intro msg hmsg
        simp only [Option.some.injEq] at hmsg
        subst hmsg
        rfl

/-- C8: within one run `processedWallets` is monotonically non-decreasing
across every progress update and the stage only moves forward along
`preparing → processing → confirming → complete` (`List.Chain' progLE`
over the full update trace); failure is terminal — the error field is
set at most on the very last update of the trace. -/
theorem progress_monotone (ch : Chain) (hasW : Bool) (pk : String)
    (subs : List Subwallet) (params : FundParams) :
    List.Chain' progLE (runFunding ch hasW pk subs params).1.trace ∧
    (∀ p ∈ (runFunding ch hasW pk subs params).1.trace.dropLast, p.error = none) :=
  ⟨(runFunding_progress ch hasW pk subs params).2.1,
   (runFunding_progress ch hasW pk subs params).2.2.1⟩

/-- C7 (amended): every error terminating the funding workflow is
recorded by setting the final progress update's `error` field to the
human-readable message — the `stage` field keeps its previous value,
since the source's stage type has no failed member — and the error
update is the last one: no batch processing follows it. -/
theorem error_recorded (ch : Chain) (hasW : Bool) (pk : String)
    (subs : List Subwallet) (params : FundParams) (msg : String)
    (h : (runFunding ch hasW pk subs params).2 = some msg) :
    (runFunding ch hasW pk subs params).1.cur.error = some msg ∧
    (runFunding ch hasW pk subs params).1.trace.getLast? =
      some (runFunding ch hasW pk subs params).1.cur ∧
    (∀ p ∈ (runFunding ch hasW pk subs params).1.trace.dropLast, p.error = none) :=
  ⟨(runFunding_progress ch hasW pk subs params).2.2.2.2 msg h,
   (runFunding_progress ch hasW pk subs params).1,
   (runFunding_progress ch hasW pk subs params).2.2.1⟩

/-- Concrete subwallet fixtures for witnesses and counterexamples. -/
def wA : Subwallet := ⟨"pkA", "skA", 0, false, 0, 0, none⟩

def wB : Subwallet := ⟨"pkB", "skB", 1, false, 0, 0, none⟩

def wC : Subwallet := ⟨"pkC", "skC", 2, false, 0, 0, none⟩

/-- A chain where every RPC call succeeds and every status poll is
confirmed, with a 10 SOL balance. -/
def okChain : Chain :=
  ⟨10000000000, fun _ _ => Except.ok "bh", fun _ => Except.ok "sig",
   fun _ _ => true, fun _ => 0⟩

/-- A chain where the submission of batch 0 throws `boom` and everything
else succeeds. -/
def sendFailChain : Chain :=
  ⟨10000000000, fun _ _ => Except.ok "bh",
   fun k => if k = 0 then Except.error "boom" else Except.ok "sig",
   fun _ _ => true, fun _ => 0⟩

/-- C7 counterexample: a run in which batch 0's submission throws ends
with the error message recorded, but the final `stage` is
`confirming` — an ordinary in-flight stage value, not a dedicated
failed state: the source's stage type has no failed member, so the claim
that the stage "becomes Failed" is false on the code. -/
theorem failed_stage_cex :
    (runFunding sendFailChain true "src" [wA, wB, wC] ⟨3, 3, false, 0, 0⟩).2 =
      some "Batch 1 failed: boom" ∧
    (runFunding sendFailChain true "src" [wA, wB, wC] ⟨3, 3, false, 0, 0⟩).1.cur.error =
      some "Batch 1 failed: boom" ∧
    (runFunding sendFailChain true "src" [wA, wB, wC] ⟨3, 3, false, 0, 0⟩).1.cur.stage =
      Stage.confirming ∧
    Stage.confirming ≠ Stage.complete ∧ Stage.confirming ≠ Stage.preparing ∧
    Stage.confirming ≠ Stage.processing := by
  refine ⟨?_, ?_, ?_, by decide, by decide, by decide⟩ <;>
    (norm_num [runFunding, runFundingTry, runBatches, calcAmounts, toFixed4, batches, setP,
      initProgress, insufficientMsg, waitForConfirmation, pollLoop, getBlockhashRetry,
      blockhashRetryAux, mkTx, mkTransfers, batchErr, LAMPORTS_PER_SOL, sendFailChain,
      wA, wB, wC, updateBalances, applyOne, jsFindIndex, List.replicate]) <;>
    rfl

/-- C7 witness for the amended theorem, at the batch-0 submission
failure run. -/
theorem error_recorded_witness :
    ((runFunding sendFailChain true "src" [wA, wB, wC] ⟨3, 3, false, 0, 0⟩).2 =
      some "Batch 1 failed: boom") ∧
    ((runFunding sendFailChain true "src" [wA, wB, wC] ⟨3, 3, false, 0, 0⟩).1.cur.error =
        some "Batch 1 failed: boom" ∧
      (runFunding sendFailChain true "src" [wA, wB, wC] ⟨3, 3, false, 0, 0⟩).1.trace.getLast? =
        some (runFunding sendFailChain true "src" [wA, wB, wC] ⟨3, 3, false, 0, 0⟩).1.cur ∧
      (∀ p ∈ (runFunding sendFailChain true "src" [wA, wB, wC]
          ⟨3, 3, false, 0, 0⟩).1.trace.dropLast, p.error = none)) := by
  have hh : (runFunding sendFailChain true "src" [wA, wB, wC] ⟨3, 3, false, 0, 0⟩).2 =
      some "Batch 1 failed: boom" := by
    norm_num [runFunding, runFundingTry, runBatches, calcAmounts, toFixed4, batches, setP,
      initProgress, insufficientMsg, waitForConfirmation, pollLoop, getBlockhashRetry,
      blockhashRetryAux, mkTx, mkTransfers, batchErr, LAMPORTS_PER_SOL, sendFailChain,
      wA, wB, wC, updateBalances, applyOne, jsFindIndex, List.replicate]
    rfl
  exact ⟨hh, error_recorded sendFailChain true "src" [wA, wB, wC] ⟨3, 3, false, 0, 0⟩
    "Batch 1 failed: boom" hh⟩

/-- C2 (amended): the pre-batch balance check compares the queried
balance against `totalBudget * LAMPORTS_PER_SOL` only — the estimated
fee is not included — and when the balance is below that the workflow
aborts with the insufficient-balance error before any transaction is
constructed or submitted. -/
theorem insufficient_balance_aborts (ch : Chain) (hasW : Bool) (pk : String)
    (subs : List Subwallet) (params : FundParams)
    (hw : hasW = true) (hs : subs ≠ [])
    (hb : ch.balance < params.totalBudget * LAMPORTS_PER_SOL) :
    (runFunding ch hasW pk subs params).2 =
      some (insufficientMsg params.totalBudget ch.balance) ∧
    (runFunding ch hasW pk subs params).1.built = [] ∧
    (runFunding ch hasW pk subs params).1.submitted = [] := by
  subst hw
  have hie : subs.isEmpty = false := by
    cases subs with
    | nil => exact absurd rfl hs
    | cons a l => rfl
  unfold runFunding runFundingTry
  simp only [Bool.not_true, Bool.false_or, hie, Bool.false_eq_true, if_false, if_pos hb]
  refine ⟨?_, ?_, ?_⟩ <;> trivial

/-- C2 witness: balance 5 lamports, budget 1 SOL — the run aborts with
the insufficient-balance message and builds nothing. -/
theorem insufficient_balance_aborts_witness :
    ((true : Bool) = true ∧ ([wA] : List Subwallet) ≠ [] ∧
      (Chain.mk 5 (fun _ _ => Except.ok "bh") (fun _ => Except.ok "sig")
          (fun _ _ => true) (fun _ => 0)).balance <
        (1 : ℚ) * LAMPORTS_PER_SOL) ∧
    ((runFunding (Chain.mk 5 (fun _ _ => Except.ok "bh") (fun _ => Except.ok "sig")
          (fun _ _ => true) (fun _ => 0)) true "src" [wA] ⟨1, 1, false, 0, 0⟩).2 =
        some (insufficientMsg 1 5) ∧
      (runFunding (Chain.mk 5 (fun _ _ => Except.ok "bh") (fun _ => Except.ok "sig")
          (fun _ _ => true) (fun _ => 0)) true "src" [wA] ⟨1, 1, false, 0, 0⟩).1.built = [] ∧
      (runFunding (Chain.mk 5 (fun _ _ => Except.ok "bh") (fun _ => Except.ok "sig")
          (fun _ _ => true) (fun _ => 0)) true "src" [wA] ⟨1, 1, false, 0, 0⟩).1.submitted = []) :=
  ⟨⟨rfl, by simp, by norm_num [LAMPORTS_PER_SOL]⟩,
   insufficient_balance_aborts _ true "src" [wA] ⟨1, 1, false, 0, 0⟩ rfl (by simp)
     (by norm_num [LAMPORTS_PER_SOL])⟩

/-- A chain whose queried balance is exactly 1 SOL in lamports, with all
RPC operations succeeding. -/
def okChainExactBalance : Chain :=
  ⟨1000000000, fun _ _ => Except.ok "bh", fun _ => Except.ok "sig",
   fun _ _ => true, fun _ => 0⟩

/-- C2 counterexample: with a balance of exactly 1 SOL (= the budget in
lamports) and the fee estimate `totalFees = 0.000005 SOL > 0`, the
balance is below `totalAmount + estimatedFee` (the plan's single amount
is `toFixed4 1 = 1`), yet the run does NOT abort: it completes and
builds and submits a transaction — the source checks the balance against
the budget alone, without the fee. -/
theorem insufficient_fee_not_checked_cex :
    okChainExactBalance.balance <
      ((1 : ℚ) + totalFees ⟨1, 1, false, 0, 0⟩) * LAMPORTS_PER_SOL ∧
    calcAmounts ⟨1, 1, false, 0, 0⟩ okChainExactBalance.rand = Except.ok [1] ∧
    (runFunding okChainExactBalance true "src" [wA] ⟨1, 1, false, 0, 0⟩).2 = none ∧
    (runFunding okChainExactBalance true "src" [wA] ⟨1, 1, false, 0, 0⟩).1.built ≠ [] ∧
    (runFunding okChainExactBalance true "src" [wA] ⟨1, 1, false, 0, 0⟩).1.submitted = [0] := by
  refine ⟨by norm_num [okChainExactBalance, totalFees, TX_FEE, LAMPORTS_PER_SOL], ?_, ?_, ?_, ?_⟩
  · norm_num [calcAmounts, toFixed4, okChainExactBalance, List.replicate]
  · norm_num [runFunding, runFundingTry, runBatches, calcAmounts, toFixed4, batches, setP,
      initProgress, insufficientMsg, waitForConfirmation, pollLoop, getBlockhashRetry,
      blockhashRetryAux, mkTx, mkTransfers, batchErr, LAMPORTS_PER_SOL, okChainExactBalance,
      wA, updateBalances, applyOne, jsFindIndex, List.replicate]
  · norm_num [runFunding, runFundingTry, runBatches, calcAmounts, toFixed4, batches, setP,
      initProgress, insufficientMsg, waitForConfirmation, pollLoop, getBlockhashRetry,
      blockhashRetryAux, mkTx, mkTransfers, batchErr, LAMPORTS_PER_SOL, okChainExactBalance,
      wA, updateBalances, applyOne, jsFindIndex, List.replicate]
  · norm_num [runFunding, runFundingTry, runBatches, calcAmounts, toFixed4, batches, setP,
      initProgress, insufficientMsg, waitForConfirmation, pollLoop, getBlockhashRetry,
      blockhashRetryAux, mkTx, mkTransfers, batchErr, LAMPORTS_PER_SOL, okChainExactBalance,
      wA, updateBalances, applyOne, jsFindIndex, List.replicate]

/-- Fail-fast through the batch loop: if the loop ever hands batch `k`'s
transaction to `sendTransaction` and that submission throws, then the
loop result carries exactly batch `k`'s wrapped error, and no batch
beyond `k` is ever constructed or submitted. -/
theorem runBatches_sendError (ch : Chain) (pk : String) (orig : List Subwallet)
    (k : ℕ) (msg : String) (hsend : ch.sendResult k = Except.error msg) :
    ∀ (bs : List (List Subwallet × List ℚ)) (k0 : ℕ) (st : RunState),
      (∀ j ∈ st.submitted, ∃ s, ch.sendResult j = Except.ok s) →
      (∀ j ∈ st.submitted, j < k0) →
      (∀ t ∈ st.built, t.batchIdx < k0) →
      k ∈ (runBatches ch pk orig bs k0 st).1.submitted →
      (runBatches ch pk orig bs k0 st).2 = some (batchErr k msg) ∧
      (∀ j ∈ (runBatches ch pk orig bs k0 st).1.submitted, j ≤ k) ∧
      (∀ t ∈ (runBatches ch pk orig bs k0 st).1.built, t.batchIdx ≤ k)
  | [], k0, st => by
      intro hok hlt hblt hk
      exfalso
      obtain ⟨s, hs⟩ := hok k hk
      rw [hsend] at hs
      simp at hs
  | (bw, ba) :: rest, k0, st => by
      intro hok hlt hblt
      simp only [runBatches]
      cases hbh : getBlockhashRetry (ch.blockhashTry k0) with
      | error e =>
        intro hk
        exfalso
        obtain ⟨s, hs⟩ := hok k hk
        rw [hsend] at hs
        simp at hs
      | ok bh =>
        cases hsend0 : ch.sendResult k0 with
        | error e =>
          intro hk
          have hk2 : k ∈ st.submitted ++ [k0] := hk
          rcases List.mem_append.mp hk2 with hmem | hmem
          · exfalso
            obtain ⟨s, hs⟩ := hok k hmem
            rw [hsend] at hs
            simp at hs
          · rcases List.mem_singleton.mp hmem with rfl
            rw [hsend] at hsend0
            injection hsend0 with he
            subst he
            refine ⟨rfl, ?_, ?_⟩
            · intro j hj
              rcases List.mem_append.mp hj with hj1 | hj1
              · exact le_of_lt (hlt j hj1)
              · rcases List.mem_singleton.mp hj1 with rfl
                exact le_refl _
            · intro t ht
              have ht2 : t ∈ st.built ++ [mkTx pk k bw ba] := ht
              rcases List.mem_append.mp ht2 with ht1 | ht1
              · exact le_of_lt (hblt t ht1)
              · rcases List.mem_singleton.mp ht1 with rfl
                exact le_refl _
        | ok sig =>
          by_cases hconf : (waitForConfirmation (ch.status k0)).confirmed = true
          · rw [if_pos hconf]
            refine runBatches_sendError ch pk orig k msg hsend rest (k0 + 1) _ ?_ ?_ ?_
            · intro j hj
              have hj2 : j ∈ st.submitted ++ [k0] := hj
              rcases List.mem_append.mp hj2 with hj1 | hj1
              · exact hok j hj1
              · rcases List.mem_singleton.mp hj1 with rfl
                exact ⟨sig, hsend0⟩
            · intro j hj
              have hj2 : j ∈ st.submitted ++ [k0] := hj
              rcases List.mem_append.mp hj2 with hj1 | hj1
              · exact Nat.lt_succ_of_lt (hlt j hj1)
              · rcases List.mem_singleton.mp hj1 with rfl
                exact Nat.lt_succ_self _
            · intro t ht
              have ht2 : t ∈ st.built ++ [mkTx pk k0 bw ba] := ht
              rcases List.mem_append.mp ht2 with ht1 | ht1
              · exact Nat.lt_succ_of_lt (hblt t ht1)
              · rcases List.mem_singleton.mp ht1 with rfl
                exact Nat.lt_succ_self _
          · rw [if_neg hconf]
            intro hk
            exfalso
            have hk2 : k ∈ st.submitted ++ [k0] := hk
            rcases List.mem_append.mp hk2 with hmem | hmem
            · obtain ⟨s, hs⟩ := hok k hmem
              rw [hsend] at hs
              simp at hs
            · rcases List.mem_singleton.mp hmem with rfl
              rw [hsend] at hsend0
              simp at hsend0

/-- The final error-recording step of the run changes neither the built
transactions, the submitted batches, nor the outcome of the `try` body. -/
theorem runFunding_unwrap (ch : Chain) (hasW : Bool) (pk : String)
    (subs : List Subwallet) (params : FundParams) :
    (runFunding ch hasW pk subs params).1.built =
      (runFundingTry ch hasW pk subs params
        ⟨initProgress, [initProgress], [], [], subs⟩).1.built ∧
    (runFunding ch hasW pk subs params).1.submitted =
      (runFundingTry ch hasW pk subs params
        ⟨initProgress, [initProgress], [], [], subs⟩).1.submitted ∧
    (runFunding ch hasW pk subs params).2 =
      (runFundingTry ch hasW pk subs params
        ⟨initProgress, [initProgress], [], [], subs⟩).2 := by
  unfold runFunding
  simp only []
  cases hres : runFundingTry ch hasW pk subs params
      ⟨initProgress, [initProgress], [], [], subs⟩ with
  | mk st out =>
    cases out with
    | none => exact ⟨rfl, rfl, rfl⟩
    | some e => exact ⟨rfl, rfl, rfl⟩

/-- The `try` body's submitted list and built list also satisfy the
fail-fast property when a reached submission throws. -/
theorem runFundingTry_sendError (ch : Chain) (hasW : Bool) (pk : String)
    (subs : List Subwallet) (params : FundParams) (k : ℕ) (msg : String)
    (hsend : ch.sendResult k = Except.error msg)
    (hk : k ∈ (runFundingTry ch hasW pk subs params
      ⟨initProgress, [initProgress], [], [], subs⟩).1.submitted) :
    (runFundingTry ch hasW pk subs params
      ⟨initProgress, [initProgress], [], [], subs⟩).2 = some (batchErr k msg) ∧
    (∀ j ∈ (runFundingTry ch hasW pk subs params
      ⟨initProgress, [initProgress], [], [], subs⟩).1.submitted, j ≤ k) ∧
    (∀ t ∈ (runFundingTry ch hasW pk subs params
      ⟨initProgress, [initProgress], [], [], subs⟩).1.built, t.batchIdx ≤ k) := by
  revert hk
  unfold runFundingTry
  by_cases hw : (!hasW || subs.isEmpty) = true
  · rw [if_pos hw]
    intro hk
    simp at hk
  · rw [if_neg hw]
    simp only []
    by_cases hb : ch.balance < params.totalBudget * LAMPORTS_PER_SOL
    · rw [if_pos hb]
      intro hk
      simp [setP] at hk
    · rw [if_neg hb]
      cases hca : calcAmounts params ch.rand with
      | error e =>
        intro hk
        simp [setP] at hk
      | ok amounts =>
        intro hk
        exact runBatches_sendError ch pk subs k msg hsend _ 0 _
          (by intro j hj; simp [setP] at hj) (by intro j hj; simp [setP] at hj)
          (by intro t ht; simp [setP] at ht) hk

/-- C5: if batch `k`'s transaction was handed to `sendTransaction` and
that submission throws, no transaction for any batch after `k` is ever
constructed or submitted, and the workflow terminates with batch `k`'s
error wrapped with its (1-based) batch index. -/
theorem failfast_on_submission_error (ch : Chain) (hasW : Bool) (pk : String)
    (subs : List Subwallet) (params : FundParams) (k : ℕ) (msg : String)
    (hsend : ch.sendResult k = Except.error msg)
    (hk : k ∈ (runFunding ch hasW pk subs params).1.submitted) :
    (runFunding ch hasW pk subs params).2 = some (batchErr k msg) ∧
    (∀ j ∈ (runFunding ch hasW pk subs params).1.submitted, j ≤ k) ∧
    (∀ t ∈ (runFunding ch hasW pk subs params).1.built, t.batchIdx ≤ k) := by
  obtain ⟨hbeq, hseq, hoeq⟩ := runFunding_unwrap ch hasW pk subs params
  rw [hseq] at hk
  obtain ⟨h1, h2, h3⟩ := runFundingTry_sendError ch hasW pk subs params k msg hsend hk
  refine ⟨?_, ?_, ?_⟩
  · rw [hoeq]
    exact h1
  · rw [hseq]
    exact h2
  · rw [hbeq]
    exact h3

/-- C5 witness: the batch-0 submission failure run — batch 0 is
submitted, the run ends with its wrapped error, and nothing beyond
batch 0 is built or submitted. -/
theorem failfast_on_submission_error_witness :
    (sendFailChain.sendResult 0 = Except.error "boom" ∧
      0 ∈ (runFunding sendFailChain true "src" [wA, wB, wC] ⟨3, 3, false, 0, 0⟩).1.submitted) ∧
    ((runFunding sendFailChain true "src" [wA, wB, wC] ⟨3, 3, false, 0, 0⟩).2 =
        some (batchErr 0 "boom") ∧
      (∀ j ∈ (runFunding sendFailChain true "src" [wA, wB, wC]
          ⟨3, 3, false, 0, 0⟩).1.submitted, j ≤ 0) ∧
      (∀ t ∈ (runFunding sendFailChain true "src" [wA, wB, wC]
          ⟨3, 3, false, 0, 0⟩).1.built, t.batchIdx ≤ 0)) := by
  have hsend : sendFailChain.sendResult 0 = Except.error "boom" := rfl
  have hk : 0 ∈ (runFunding sendFailChain true "src" [wA, wB, wC]
      ⟨3, 3, false, 0, 0⟩).1.submitted := by
    norm_num [runFunding, runFundingTry, runBatches, calcAmounts, toFixed4, batches, setP,
      initProgress, insufficientMsg, waitForConfirmation, pollLoop, getBlockhashRetry,
      blockhashRetryAux, mkTx, mkTransfers, batchErr, LAMPORTS_PER_SOL, sendFailChain,
      wA, wB, wC, updateBalances, applyOne, jsFindIndex, List.replicate]
  exact ⟨⟨hsend, hk⟩, failfast_on_submission_error sendFailChain true "src" [wA, wB, wC]
    ⟨3, 3, false, 0, 0⟩ 0 "boom" hsend hk⟩

/-- The transactions the loop would build for a batch list, batches
numbered from `k`. -/
def plannedTxsAux (pk : String) : ℕ → List (List Subwallet × List ℚ) → List Tx
  | _, [] => []
  | k, (bw, ba) :: rest => mkTx pk k bw ba :: plannedTxsAux pk (k + 1) rest

/-- All transfer instructions of a transaction list, in order. -/
def txTransfers (l : List Tx) : List Transfer :=
  (l.map Tx.transfers).flatten

/-- The batch loop builds exactly the planned transactions of the first
`m` batches for some `m`, and all of them when it finishes without
aborting. -/
theorem runBatches_built (ch : Chain) (pk : String) (orig : List Subwallet) :
    ∀ (bs : List (List Subwallet × List ℚ)) (k : ℕ) (st : RunState),
      ∃ m, m ≤ bs.length ∧
        (runBatches ch pk orig bs k st).1.built =
          st.built ++ plannedTxsAux pk k (bs.take m) ∧
        ((runBatches ch pk orig bs k st).2 = none → m = bs.length)
  | [], k, st => by
      refine ⟨0, le_refl 0, ?_, fun _ => rfl⟩
      simp [runBatches, plannedTxsAux, setP]
  | (bw, ba) :: rest, k, st => by
      simp only [runBatches]
      cases hbh : getBlockhashRetry (ch.blockhashTry k) with
      | error e =>
        refine ⟨1, by simp, ?_, ?_⟩
        · show st.built ++ [mkTx pk k bw ba] = st.built ++ plannedTxsAux pk k [(bw, ba)]
          simp [plannedTxsAux]
        · intro h
          simp at h
      | ok bh =>
        cases hsend0 : ch.sendResult k with
        | error e =>
          refine ⟨1, by simp, ?_, ?_⟩
          · show st.built ++ [mkTx pk k bw ba] = st.built ++ plannedTxsAux pk k [(bw, ba)]
            simp [plannedTxsAux]
          · intro h
            simp at h
        | ok sig =>
          by_cases hconf : (waitForConfirmation (ch.status k)).confirmed = true
          · rw [if_pos hconf]
            obtain ⟨m, hm, hbuilt, hnone⟩ := runBatches_built ch pk orig rest (k + 1) _
            refine ⟨m + 1, by simp only [List.length_cons]; omega, ?_, ?_⟩
            · rw [hbuilt]
              show (st.built ++ [mkTx pk k bw ba]) ++ plannedTxsAux pk (k + 1) (rest.take m) =
                st.built ++ plannedTxsAux pk k ((bw, ba) :: rest.take m)
              rw [List.append_assoc]
              simp [plannedTxsAux]
            · intro h
              have := hnone h
              simp [this]
          · rw [if_neg hconf]
            refine ⟨1, by simp, ?_, ?_⟩
            · show st.built ++ [mkTx pk k bw ba] = st.built ++ plannedTxsAux pk k [(bw, ba)]
              simp [plannedTxsAux]
            · intro h
              simp at h

/-- Membership in the planned transactions of a prefix implies
membership in the planned transactions of the whole batch list. -/
theorem plannedTxsAux_take_subset (pk : String) :
    ∀ (bs : List (List Subwallet × List ℚ)) (k m : ℕ) (t : Tx),
      t ∈ plannedTxsAux pk k (bs.take m) → t ∈ plannedTxsAux pk k bs
  | [], k, m, t => by simp
  | (bw, ba) :: rest, k, m, t => by
      cases m with
      | zero => intro h; simp [plannedTxsAux] at h
      | succ m =>
        intro h
        rw [List.take_succ_cons] at h
        simp only [plannedTxsAux, List.mem_cons] at h ⊢
        rcases h with h | h
        · exact Or.inl h
        · exact Or.inr (plannedTxsAux_take_subset pk rest (k + 1) m t h)

/-- The transfers of the full planned transaction list are exactly the
first-`n` wallets zipped with their amounts, in order. -/
theorem planned_flatten (pk : String) :
    ∀ (ws : List Subwallet) (amts : List ℚ) (k : ℕ),
      txTransfers (plannedTxsAux pk k (batches ws amts)) =
        (ws.zip amts).map (fun p => ⟨pk, p.1.publicKey, p.2 * LAMPORTS_PER_SOL⟩)
  | [], amts, k => by simp [batches, plannedTxsAux, txTransfers]
  | [w], amts, k => by
      cases amts with
      | nil => simp [batches, plannedTxsAux, txTransfers, mkTx, mkTransfers]
      | cons a t =>
        simp [batches, plannedTxsAux, txTransfers, mkTx, mkTransfers, List.take_succ_cons]
  | w1 :: w2 :: ws, amts, k => by
      cases amts with
      | nil =>
        have ih := planned_flatten pk ws [] (k + 1)
        simp only [batches, List.take_nil, List.drop_nil, plannedTxsAux, txTransfers,
          List.map_cons, List.flatten_cons, mkTx, mkTransfers, List.zip_nil_right,
          List.map_nil, List.nil_append] at ih ⊢
        exact ih
      | cons a t =>
        cases t with
        | nil =>
          have ih := planned_flatten pk ws [] (k + 1)
          simp only [batches, plannedTxsAux, txTransfers, List.map_cons, List.flatten_cons,
            mkTx, mkTransfers, List.zip_nil_right, List.map_nil, List.nil_append] at ih ⊢
          simp [List.take, List.drop, ih]
        | cons b t2 =>
          have ih := planned_flatten pk ws t2 (k + 1)
          simp only [batches, plannedTxsAux, txTransfers, List.map_cons, List.flatten_cons,
            mkTx, mkTransfers] at ih ⊢
          simp [List.take, List.drop, ih]

/-- The `try` body builds exactly the planned transactions of an
initial segment of the batch list, and all of them when it succeeds. -/
theorem runFundingTry_built (ch : Chain) (hasW : Bool) (pk : String)
    (subs : List Subwallet) (params : FundParams) (amounts : List ℚ)
    (hok : calcAmounts params ch.rand = Except.ok amounts) :
    ∃ m, m ≤ (batches (subs.take params.walletsToFund) amounts).length ∧
      (runFundingTry ch hasW pk subs params
        ⟨initProgress, [initProgress], [], [], subs⟩).1.built =
        plannedTxsAux pk 0 ((batches (subs.take params.walletsToFund) amounts).take m) ∧
      ((runFundingTry ch hasW pk subs params
          ⟨initProgress, [initProgress], [], [], subs⟩).2 = none →
        m = (batches (subs.take params.walletsToFund) amounts).length) := by
  unfold runFundingTry
  by_cases hw : (!hasW || subs.isEmpty) = true
  · rw [if_pos hw]
    refine ⟨0, Nat.zero_le _, by simp [plannedTxsAux], ?_⟩
    intro h
    simp at h
  · rw [if_neg hw]
    simp only []
    by_cases hb : ch.balance < params.totalBudget * LAMPORTS_PER_SOL
    · rw [if_pos hb]
      refine ⟨0, Nat.zero_le _, by simp [plannedTxsAux, setP], ?_⟩
      intro h
      simp at h
    · rw [if_neg hb, hok]
      simp only []
      obtain ⟨m, hm, hbuilt, hnone⟩ := runBatches_built ch pk subs
        (batches (subs.take params.walletsToFund) amounts) 0
        (setP (setP ⟨initProgress, [initProgress], [], [], subs⟩
            (fun _ => ⟨Stage.preparing, 0, 0, 0, params.walletsToFund, none⟩))
          (fun p => { p with
            stage := Stage.processing
            totalBatches := ((subs.take params.walletsToFund).length + 1) / 2 }))
      refine ⟨m, hm, ?_, hnone⟩
      rw [hbuilt]
      simp [setP]

/-- C9: every transfer of every transaction built by a run goes from the
source key to the `i`-th of the first `walletsToFund` subwallets with
the `i`-th allocated amount (in lamports), for some `i`; wallets at
positions `≥ walletsToFund` never appear.  When the run completes
without error, the concatenated transfers are exactly the first
`walletsToFund` subwallets zipped with their amounts, in order. -/
theorem targets_first_wallets (ch : Chain) (hasW : Bool) (pk : String)
    (subs : List Subwallet) (params : FundParams) (amounts : List ℚ)
    (hok : calcAmounts params ch.rand = Except.ok amounts) :
    (∀ t ∈ (runFunding ch hasW pk subs params).1.built, ∀ tr ∈ t.transfers,
      tr.fromPubkey = pk ∧
      ∃ i, ∃ hi : i < (subs.take params.walletsToFund).length,
        ∃ ha : i < amounts.length,
        tr.toPubkey = ((subs.take params.walletsToFund).get ⟨i, hi⟩).publicKey ∧
        tr.lamports = amounts.get ⟨i, ha⟩ * LAMPORTS_PER_SOL) ∧
    ((runFunding ch hasW pk subs params).2 = none →
      txTransfers (runFunding ch hasW pk subs params).1.built =
        ((subs.take params.walletsToFund).zip amounts).map
          (fun p => ⟨pk, p.1.publicKey, p.2 * LAMPORTS_PER_SOL⟩)) := by
  obtain ⟨hbeq, hseq, hoeq⟩ := runFunding_unwrap ch hasW pk subs params
  obtain ⟨m, hm, hbuilt, hnone⟩ := runFundingTry_built ch hasW pk subs params amounts hok
  constructor
  · intro t ht tr htr
    rw [hbeq, hbuilt] at ht
    have hfull : t ∈ plannedTxsAux pk 0 (batches (subs.take params.walletsToFund) amounts) :=
      plannedTxsAux_take_subset pk _ 0 m t ht
    have htrf : tr ∈ txTransfers
        (plannedTxsAux pk 0 (batches (subs.take params.walletsToFund) amounts)) := by
      simp only [txTransfers, List.mem_flatten, List.mem_map]
      exact ⟨t.transfers, ⟨t, hfull, rfl⟩, htr⟩
    rw [planned_flatten] at htrf
    obtain ⟨p, hp, hf⟩ := List.mem_map.mp htrf
    obtain ⟨n, hgot⟩ := List.mem_iff_get.mp hp
    have hi : (n : ℕ) < (subs.take params.walletsToFund).length :=
      List.lt_length_left_of_zip n.isLt
    have ha : (n : ℕ) < amounts.length :=
      List.lt_length_right_of_zip n.isLt
    have hz : ((subs.take params.walletsToFund).zip amounts).get n =
        ((subs.take params.walletsToFund).get ⟨n, hi⟩, amounts.get ⟨n, ha⟩) :=
      List.get_zip
    rw [hz] at hgot
    subst hgot
    subst hf
    exact ⟨rfl, n, hi, ha, rfl, rfl⟩
  · intro hdone
    rw [hoeq] at hdone
    have hmfull := hnone hdone
    subst hmfull
    rw [hbeq, hbuilt, List.take_length, planned_flatten]

/-- C9 witness: a successful uniform run over 3 of 3 subwallets with
1 SOL each transfers amount `i` to subwallet `i`, in order. -/
theorem targets_first_wallets_witness :
    (calcAmounts ⟨3, 3, false, 0, 0⟩ okChain.rand = Except.ok [1, 1, 1]) ∧
    ((runFunding okChain true "src" [wA, wB, wC] ⟨3, 3, false, 0, 0⟩).2 = none →
      txTransfers (runFunding okChain true "src" [wA, wB, wC] ⟨3, 3, false, 0, 0⟩).1.built =
        (([wA, wB, wC].take 3).zip [1, 1, 1]).map
          (fun p => ⟨"src", p.1.publicKey, p.2 * LAMPORTS_PER_SOL⟩)) := by
  have hok : calcAmounts ⟨3, 3, false, 0, 0⟩ okChain.rand = Except.ok [1, 1, 1] := by
    norm_num [calcAmounts, toFixed4, okChain, List.replicate]
  exact ⟨hok, (targets_first_wallets okChain true "src" [wA, wB, wC]
    ⟨3, 3, false, 0, 0⟩ [1, 1, 1] hok).2⟩

theorem jsFindIndex_none_not_mem (target : String) :
    ∀ l : List Subwallet, jsFindIndex target l = none →
      target ∉ l.map Subwallet.publicKey
  | [] => by simp
  | w :: ws => by
      intro h
      unfold jsFindIndex at h
      by_cases hw : w.publicKey = target
      · rw [if_pos hw] at h
        simp at h
      · rw [if_neg hw] at h
        cases hws : jsFindIndex target ws with
        | some wj =>
          rw [hws] at h
          simp at h
        | none =>
          have hrec := jsFindIndex_none_not_mem target ws hws
          simp only [List.map_cons, List.mem_cons]
          push_neg
          exact ⟨fun he => hw he.symm, hrec⟩

theorem jsFindIndex_some_spec (target : String) :
    ∀ (l : List Subwallet) (wi : ℕ), jsFindIndex target l = some wi →
      ∃ h : wi < l.length, (l.get ⟨wi, h⟩).publicKey = target
  | [] => by intro wi h; simp [jsFindIndex] at h
  | w :: ws => by
      intro wi h
      unfold jsFindIndex at h
      by_cases hw : w.publicKey = target
      · rw [if_pos hw] at h
        injection h with h
        subst h
        exact ⟨Nat.succ_pos _, hw⟩
      · rw [if_neg hw] at h
        cases hws : jsFindIndex target ws with
        | none =>
          rw [hws] at h
          simp at h
        | some wj =>
          rw [hws] at h
          simp only [Option.map_some'] at h
          injection h with h
          subst h
          obtain ⟨hlt, hget⟩ := jsFindIndex_some_spec target ws wj hws
          exact ⟨Nat.succ_lt_succ hlt, hget⟩

theorem jsFindIndex_eq_some (target : String) :
    ∀ (l : List Subwallet) (j : ℕ) (hj : j < l.length),
      (l.map Subwallet.publicKey).Nodup →
      (l.get ⟨j, hj⟩).publicKey = target →
      jsFindIndex target l = some j
  | [], j, hj => by simp at hj
  | w :: ws, 0, hj => by
      intro hnd ht
      have ht0 : w.publicKey = target := ht
      unfold jsFindIndex
      rw [if_pos ht0]
  | w :: ws, j + 1, hj => by
      intro hnd ht
      have hjlt : j < ws.length := by
        simp only [List.length_cons] at hj
        omega
      have ht2 : (ws.get ⟨j, hjlt⟩).publicKey = target := ht
      simp only [List.map_cons, List.nodup_cons] at hnd
      have hne : ¬ w.publicKey = target := by
        intro he
        refine hnd.1 ?_
        rw [he, ← ht2]
        exact List.mem_map_of_mem _ (ws.get_mem _ _)
      unfold jsFindIndex
      rw [if_neg hne, jsFindIndex_eq_some target ws j hjlt hnd.2 ht2]
      rfl

theorem set_get_self {α : Type} :
    ∀ (l : List α) (n : ℕ) (x : α), l.get? n = some x → l.set n x = l
  | [], n, x => by simp
  | a :: t, 0, x => by
      intro h
      simp only [List.get?_cons_zero, Option.some.injEq] at h
      subst h
      rfl
  | a :: t, n + 1, x => by
      intro h
      simp only [List.get?_cons_succ] at h
      show a :: t.set n x = a :: t
      rw [set_get_self t n x h]

/-- One step of the balance-update fold: the wallet found by public key
(unique by the nodup hypothesis) gets its `solBalance` replaced by the
rounded sum, every other position is untouched, and the public-key
sequence is unchanged. -/
theorem applyOne_spec (orig current : List Subwallet) (w : Subwallet) (a : ℚ)
    (halign : current.map Subwallet.publicKey = orig.map Subwallet.publicKey)
    (hnd : (orig.map Subwallet.publicKey).Nodup) :
    (applyOne orig current w a).length = current.length ∧
    (applyOne orig current w a).map Subwallet.publicKey =
      current.map Subwallet.publicKey ∧
    ∀ j x, current.get? j = some x →
      (x.publicKey ≠ w.publicKey → (applyOne orig current w a).get? j = some x) ∧
      (x.publicKey = w.publicKey → (applyOne orig current w a).get? j =
        some { x with solBalance := toFixed4 (x.solBalance + a) }) := by
  have hlen : current.length = orig.length := by
    have h := congrArg List.length halign
    simpa using h
  unfold applyOne
  cases hfi : jsFindIndex w.publicKey orig with
  | none =>
    have hnm := jsFindIndex_none_not_mem w.publicKey orig hfi
    refine ⟨rfl, rfl, ?_⟩
    intro j x hx
    refine ⟨fun _ => hx, ?_⟩
    intro hpk
    exfalso
    refine hnm ?_
    rw [← halign, ← hpk]
    exact List.mem_map_of_mem _ (List.get?_mem hx)
  | some wi =>
    obtain ⟨hwi, hget⟩ := jsFindIndex_some_spec w.publicKey orig wi hfi
    have hwi2 : wi < current.length := by omega
    have hcur : current.get? wi = some (current.get ⟨wi, hwi2⟩) := List.get?_eq_get hwi2
    dsimp only
    rw [hcur]
    have hpkwi : (current.get ⟨wi, hwi2⟩).publicKey = w.publicKey := by
      have h1 : (current.map Subwallet.publicKey).get? wi =
          some (current.get ⟨wi, hwi2⟩).publicKey := by
        rw [List.get?_map, hcur]
        rfl
      have h2 : (orig.map Subwallet.publicKey).get? wi =
          some (orig.get ⟨wi, hwi⟩).publicKey := by
        rw [List.get?_map, List.get?_eq_get hwi]
        rfl
      rw [halign, h2] at h1
      injection h1 with h1
      rw [← h1]
      exact hget
    refine ⟨List.length_set _ _ _, ?_, ?_⟩
    · rw [List.map_set]
      refine set_get_self _ _ _ ?_
      rw [List.get?_map, hcur]
      rfl
    · intro j x hx
      have hndc : (current.map Subwallet.publicKey).Nodup := by
        rw [halign]
        exact hnd
      constructor
      · intro hne
        have hjne : wi ≠ j := by
          intro he
          subst he
          rw [hcur] at hx
          injection hx with hx
          subst hx
          exact hne hpkwi
        rw [List.get?_set_ne _ _ hjne]
        exact hx
      · intro hpk
        have hjwi : j = wi := by
          have hja : (current.map Subwallet.publicKey).get? j = some w.publicKey := by
            rw [List.get?_map, hx, ← hpk]
            rfl
          have hwa : (current.map Subwallet.publicKey).get? wi = some w.publicKey := by
            rw [List.get?_map, hcur, ← hpkwi]
            rfl
          have hjc : j < (current.map Subwallet.publicKey).length := by
            rw [List.length_map]
            by_contra hc
            rw [List.get?_eq_none.mpr (by omega)] at hx
            simp at hx
          exact List.get?_inj hjc hndc (hja.trans hwa.symm)
        subst hjwi
        rw [hcur] at hx
        injection hx with hx
        subst hx
        rw [List.get?_set_eq_of_lt]
        exact hwi2

/-- C10: the balance update applied when a batch's transaction is
confirmed changes only the `solBalance` of the wallets of that batch —
each becomes the old value plus the wallet's allocated batch amount,
re-rounded to 4 decimal places — while every other wallet, and every
other field (`publicKey`, `privateKey`, `index`, `isRevealed`,
`caBalance`, `isLoading`) of the updated wallets, is unchanged.
Hypotheses: the current list's public keys coincide positionally with
the captured original list used by `findIndex`, original keys are
distinct (derived wallets are), and the batch's keys are distinct
(batches are slices of the original list). -/
theorem balance_update_frame (orig : List Subwallet) :
    ∀ (bw : List Subwallet) (ba : List ℚ) (current : List Subwallet),
      current.map Subwallet.publicKey = orig.map Subwallet.publicKey →
      (orig.map Subwallet.publicKey).Nodup →
      (bw.map Subwallet.publicKey).Nodup →
      (updateBalances orig current bw ba).length = current.length ∧
      ∀ j x, current.get? j = some x →
        ∃ y, (updateBalances orig current bw ba).get? j = some y ∧
          y.publicKey = x.publicKey ∧ y.privateKey = x.privateKey ∧
          y.index = x.index ∧ y.isRevealed = x.isRevealed ∧
          y.caBalance = x.caBalance ∧ y.isLoading = x.isLoading ∧
          (x.publicKey ∉ bw.map Subwallet.publicKey → y = x) ∧
          (∀ l wl b, bw.get? l = some wl → ba.get? l = some b →
            wl.publicKey = x.publicKey →
            y.solBalance = toFixed4 (x.solBalance + b))
  | [], ba, current => by
      intro halign hnd hbwnd
      refine ⟨rfl, ?_⟩
      intro j x hx
      refine ⟨x, hx, rfl, rfl, rfl, rfl, rfl, rfl, fun _ => rfl, ?_⟩
      intro l wl b hwl hb hpk
      simp at hwl
  | w :: bw, [], current => by
      intro halign hnd hbwnd
      refine ⟨rfl, ?_⟩
      intro j x hx
      refine ⟨x, hx, rfl, rfl, rfl, rfl, rfl, rfl, fun _ => rfl, ?_⟩
      intro l wl b hwl hb hpk
      simp at hb
  | w :: bw, b :: ba, current => by
      intro halign hnd hbwnd
      obtain ⟨hlen1, hmap1, hpoint⟩ := applyOne_spec orig current w b halign hnd
      have halign2 : (applyOne orig current w b).map Subwallet.publicKey =
          orig.map Subwallet.publicKey := hmap1.trans halign
      simp only [List.map_cons, List.nodup_cons] at hbwnd
      obtain ⟨hlen2, hrest⟩ :=
        balance_update_frame orig bw ba (applyOne orig current w b) halign2 hnd hbwnd.2
      refine ⟨?_, ?_⟩
      · show (updateBalances orig (applyOne orig current w b) bw ba).length = current.length
        rw [hlen2, hlen1]
      · intro j x hx
        by_cases hpk : x.publicKey = w.publicKey
        · have hstep := (hpoint j x hx).2 hpk
          obtain ⟨y, hy, f1, f2, f3, f4, f5, f6, hframe, hupd⟩ := hrest j _ hstep
          refine ⟨y, hy, f1, f2, f3, f4, f5, f6, ?_, ?_⟩
          · intro hnm
            exfalso
            refine hnm ?_
            rw [hpk]
            simp
          · intro l wl b0 hwl hb0 hpkl
            cases l with
            | zero =>
              simp only [List.get?_cons_zero, Option.some.injEq] at hwl hb0
              subst hwl
              subst hb0
              have hy2 : y = { x with solBalance := toFixed4 (x.solBalance + b) } := by
                refine hframe ?_
                show x.publicKey ∉ List.map Subwallet.publicKey bw
                rw [hpk]
                exact hbwnd.1
              rw [hy2]
            | succ l =>
              exfalso
              simp only [List.get?_cons_succ] at hwl
              refine hbwnd.1 ?_
              rw [← hpk, ← hpkl]
              exact List.mem_map_of_mem _ (List.get?_mem hwl)
        · have hstep := (hpoint j x hx).1 hpk
          obtain ⟨y, hy, f1, f2, f3, f4, f5, f6, hframe, hupd⟩ := hrest j x hstep
          refine ⟨y, hy, f1, f2, f3, f4, f5, f6, ?_, ?_⟩
          · intro hnm
            refine hframe ?_
            intro hmem
            refine hnm ?_
            simp only [List.map_cons, List.mem_cons]
            exact Or.inr hmem
          · intro l wl b0 hwl hb0 hpkl
            cases l with
            | zero =>
              simp only [List.get?_cons_zero, Option.some.injEq] at hwl
              subst hwl
              exact absurd hpkl.symm hpk
            | succ l =>
              simp only [List.get?_cons_succ] at hwl hb0
              exact hupd l wl b0 hwl hb0 hpkl

/-- C10 witness: updating the batch `[wB]` with amount 5 over the list
`[wA, wB]` satisfies the frame specification at that concrete input. -/
theorem balance_update_frame_witness :
    (([wA, wB].map Subwallet.publicKey = [wA, wB].map Subwallet.publicKey) ∧
      (([wA, wB].map Subwallet.publicKey).Nodup) ∧
      (([wB].map Subwallet.publicKey).Nodup)) ∧
    ((updateBalances [wA, wB] [wA, wB] [wB] [5]).length = [wA, wB].length ∧
      ∀ j x, [wA, wB].get? j = some x →
        ∃ y, (updateBalances [wA, wB] [wA, wB] [wB] [5]).get? j = some y ∧
          y.publicKey = x.publicKey ∧ y.privateKey = x.privateKey ∧
          y.index = x.index ∧ y.isRevealed = x.isRevealed ∧
          y.caBalance = x.caBalance ∧ y.isLoading = x.isLoading ∧
          (x.publicKey ∉ [wB].map Subwallet.publicKey → y = x) ∧
          (∀ l wl b, [wB].get? l = some wl → ([5] : List ℚ).get? l = some b →
            wl.publicKey = x.publicKey →
            y.solBalance = toFixed4 (x.solBalance + b))) :=
  ⟨⟨rfl, by decide, by decide⟩,
   balance_update_frame [wA, wB] [wB] [5] [wA, wB] rfl (by decide) (by decide)⟩

end Sniper
